import Mathlib

/-!
Verification development for the spatial-hash-accelerated Poisson-disk
sampling engine of `semantic_urban_mesh_segmentation`
(`sampling_function.hpp`).

The engine's own logic (`InitSpatialHashTable`, `checkPoissonDisk`,
`getBestPrecomputedMontecarloSample`, `PoissonDiskPruning`,
`PoissonDiskPruningByNumber`, `montecarlo_sampling`) is embedded from the
source.  Floating-point scalars are modelled by exact rationals; the two
irrational constants occurring in the source (`sqrt(3.0)` and the
bounding-box diagonal) are replaced by explicit rational stand-ins.

The collaborators `SpatialHashTable` (spatial_hashing.hpp), the random
generator (random_generator.hpp) and the easy3d geometry types are not part
of the analysed sources; their operations are modelled from the
specification's collaborator contract (sections 3, 4.1 and 6) and are marked
`Modelled from the spec:` in their doc comments.
-/

namespace SUMS

/-- A 3D point with exact rational coordinates (models `easy3d::vec3`). -/
structure Vec3 where
  x : ℚ
  y : ℚ
  z : ℚ
deriving DecidableEq, Repr

/-- Squared Euclidean distance between two points.  All distance
comparisons of the source (`easy3d::distance(p,q) < t`) are embedded through
`dist2` to stay inside the rationals. -/
def dist2 (p q : Vec3) : ℚ :=
  (p.x - q.x) ^ 2 + (p.y - q.y) ^ 2 + (p.z - q.z) ^ 2

/-- The exact comparison `distance(p,q) < t` of the source, expressed over
squared quantities: for a real (possibly negative) threshold `t`,
`‖p-q‖ < t` holds iff `t` is nonnegative and `dist2 p q < t^2`
(both sides of the comparison are nonnegative, so squaring is faithful). -/
def distLt (p q : Vec3) (t : ℚ) : Prop :=
  0 ≤ t ∧ dist2 p q < t ^ 2

instance (p q : Vec3) (t : ℚ) : Decidable (distLt p q t) := by
  unfold distLt; infer_instance

/-- Scalar multiplication of a point (used by barycentric combination). -/
def vsmul (p : Vec3) (t : ℚ) : Vec3 :=
  ⟨p.x * t, p.y * t, p.z * t⟩

/-- Componentwise addition of points. -/
def vadd (p q : Vec3) : Vec3 :=
  ⟨p.x + q.x, p.y + q.y, p.z + q.z⟩

/-- One face of the mesh: its three vertex positions together with its
stored area (the source reads `get_face_area[fi]`). -/
structure FaceModel where
  v0 : Vec3
  v1 : Vec3
  v2 : Vec3
  area : ℚ
deriving DecidableEq, Repr

/-- The slice of `SFMesh` the sampling engine consumes: the vertex list, the
face list with per-face areas, and the stored bounding box `mesh_bbox`. -/
structure SFMeshModel where
  verts : List Vec3
  faces : List FaceModel
  bbmin : Vec3
  bbmax : Vec3
deriving DecidableEq, Repr

/-- Rational stand-in for the value the float expression `sqrt(3.0)`
produces in `InitSpatialHashTable` (`cellsize = 2.0f * diskRadius / sqrt(3.0)`). -/
def sqrt3Q : ℚ := 17320508 / 10000000

/-- Floor of a rational, written so that it evaluates by kernel reduction:
for the reduced fraction `num/den` with `den > 0`, the floor is the
Euclidean quotient `num / den`. -/
def ratFloorZ (q : ℚ) : ℤ := q.num / (q.den : ℤ)

/-- Integer square root by bounded search (kernel-evaluable stand-in for
`Nat.sqrt`, which is defined by well-founded recursion): the largest `k`
with `k * k ≤ n`. -/
def natSqrtL (n : ℕ) : ℕ :=
  ((List.range (n + 1)).filter (fun k => k * k ≤ n)).foldr max 0

/-- Exact rational square root used where the source calls a float `sqrt`:
it is exact whenever numerator and denominator are perfect squares, which is
the case for every concrete input appearing in this development. -/
def ratSqrt (q : ℚ) : ℚ :=
  (natSqrtL q.num.natAbs : ℚ) / (natSqrtL q.den : ℚ)

/-- Length of the bounding-box diagonal (`mesh_bbox.diagonal()`), via
`ratSqrt`. -/
def diagQ (m : SFMeshModel) : ℚ :=
  ratSqrt (dist2 m.bbmin m.bbmax)

/-- Modelled from the spec: the RandomSource collaborator contract of
section 6 (random_generator.hpp is not among the analysed sources).  A
source is an indexed oracle delivering uniform unit draws
(`generate01`, values in `[0,1)`), uniform naturals (`generate(n)`, used by
the shuffle) and uniform barycentric triples (`RandomBarycentric`). -/
structure RandomSource where
  unit : ℕ → ℚ
  nat : ℕ → ℕ
  bary : ℕ → ℚ × ℚ × ℚ

/-- Integer cell coordinates of the spatial hash grid. -/
abbrev Cell := ℤ × ℤ × ℤ

/-- Modelled from the spec: the state of a `SpatialHashTable`
(spatial_hashing.hpp is not among the analysed sources).  Cell geometry is
the target cell size of section 4.3 step 1; `live` is the current occupancy
(references into the dense pool, in insertion order); `alloc` is the
`AllocatedCells` list maintained by explicit refresh. -/
structure SHTModel where
  cellsize : ℚ
  origin : Vec3
  live : List Vec3
  alloc : List Cell
deriving DecidableEq, Repr

/-- Modelled from the spec: the integer cell coordinate of a position,
computed from the grid geometry (`Add` contract, section 4.1). -/
def cellOf (c : ℚ) (o : Vec3) (p : Vec3) : Cell :=
  (ratFloorZ ((p.x - o.x) / c), ratFloorZ ((p.y - o.y) / c), ratFloorZ ((p.z - o.z) / c))

/-- Modelled from the spec: `UpdateAllocatedCells` recomputes the allocated
cell list from the current occupancy; each occupied cell is listed exactly
once (the enumeration order of the underlying hash map is unspecified in
the contract; this model uses the order produced by `List.dedup`). -/
def UpdateAllocatedCells (g : SHTModel) : SHTModel :=
  { g with alloc := (g.live.map (cellOf g.cellsize g.origin)).dedup }

/-- Modelled from the spec: the occupant list of one cell (insertion
order). -/
def occupantsOf (g : SHTModel) (cl : Cell) : List Vec3 :=
  g.live.filter (fun p => decide (cellOf g.cellsize g.origin p = cl))

/-- Modelled from the spec: `IsCellEmpty` (called `EmptyCell` at the call
site in `PoissonDiskPruning`). -/
def EmptyCell (g : SHTModel) (cl : Cell) : Bool :=
  (occupantsOf g cl).isEmpty

/-- Modelled from the spec: `CountInSphere` tests each occupant's Euclidean
distance to the center and counts those with distance < radius. -/
def CountInSphere (g : SHTModel) (center : Vec3) (radius : ℚ) : ℕ :=
  (g.live.filter (fun p => decide (distLt p center radius))).length

/-- Modelled from the spec: `RemoveInSphere` erases from the occupancy the
points with distance < radius from the center. -/
def RemoveInSphere (g : SHTModel) (center : Vec3) (radius : ℚ) : SHTModel :=
  { g with live := g.live.filter (fun p => !decide (distLt p center radius)) }

/-- Modelled from the spec: `QueryBox` / `GridGetInBox` returns every
occupant whose own (degenerate) bounding box collides with the closed query
box; for the cubical query box of `checkPoissonDisk` these are the occupants
within Chebyshev distance `radius` of the center. -/
def GridGetInBox (g : SHTModel) (p : Vec3) (radius : ℚ) : List Vec3 :=
  g.live.filter (fun q =>
    decide (|q.x - p.x| ≤ radius ∧ |q.y - p.y| ≤ radius ∧ |q.z - p.z| ≤ radius))

/-- The grid built by one iteration of `InitSpatialHashTable`'s body for
cell size `c`: the extended box origin is `mesh_bbox` inflated by `c`
(`extend_box.Offset(cellsize)`), all dense points are added, and
`UpdateAllocatedCells` is run.  The integer resolution `(sizeX,sizeY,sizeZ)`
computed by the source only fixes the number of cells inside the box and
does not affect which cell a point occupies in this model. -/
def buildGrid (m : SFMeshModel) (pool : List Vec3) (c : ℚ) : SHTModel :=
  UpdateAllocatedCells
    { cellsize := c
      origin := ⟨m.bbmin.x - c, m.bbmin.y - c, m.bbmin.z - c⟩
      live := pool
      alloc := [] }

/-- The `do { ... } while (occupancyRatio > 100)` loop of
`InitSpatialHashTable`, with explicit fuel: each iteration builds the grid
at the current cell size, halves the cell size, and repeats while the
occupancy ratio (point count over allocated-cell count) exceeds 100.
`none` means the loop had not exited after `fuel` iterations. -/
def initLoop (m : SFMeshModel) (pool : List Vec3) : ℕ → ℚ → Option SHTModel
  | 0, _ => none
  | fuel + 1, c =>
    let g := buildGrid m pool c
    if 100 < (pool.length : ℚ) / (g.alloc.length : ℚ) then
      initLoop m pool fuel (c / 2)
    else
      some g

/-- `InitSpatialHashTable`: starts the rebuild loop from cell size
`2 * diskRadius / sqrt(3.0)`. -/
def InitSpatialHashTable (fuel : ℕ) (m : SFMeshModel) (pool : List Vec3)
    (diskRadius : ℚ) : Option SHTModel :=
  initLoop m pool fuel (2 * diskRadius / sqrt3Q)

/-- `checkPoissonDisk(sht, p, radius)` as written in the source: it queries
the box of half-width `radius` around `p` and returns `false` iff some
returned sample has Euclidean distance to `p` below `r2 = radius * radius`
(the source compares the unsquared distance against `r2`). -/
def checkPoissonDisk (g : SHTModel) (p : Vec3) (radius : ℚ) : Bool :=
  let closests := GridGetInBox g p radius
  let r2 := radius * radius
  closests.all (fun q => !decide (distLt p q r2))

/-- The behaviour claim C9 ascribes to `checkPoissonDisk`: every point of
the box query lies at Euclidean distance at least `radius` from `p`.  This
definition follows the claim's words and is compared with the embedded
source function. -/
def checkPoissonDiskClaimed (g : SHTModel) (p : Vec3) (radius : ℚ) : Bool :=
  (GridGetInBox g p radius).all (fun q => !decide (distLt p q radius))

/-- `std::numeric_limits<int>::max()`, the initial value of `minRemoveCnt`
in `getBestPrecomputedMontecarloSample`. -/
def intMaxC : ℕ := 2147483647

/-- The scan loop of `getBestPrecomputedMontecarloSample`: walks the cell's
occupants while fewer than `bestSamplePoolSize` have been scanned, keeping
the occupant with the smallest `CountInSphere`.  `none` models the
uninitialized `bestSample` pointer that is returned when the loop body
never assigns it. -/
def getBestLoop (g : SHTModel) (diskRadius : ℚ) (k : ℕ) :
    List Vec3 → ℕ → Option Vec3 → ℕ → Option Vec3
  | [], _, best, _ => best
  | sp :: rest, i, best, minRemoveCnt =>
    if i < k then
      let curRemoveCnt := CountInSphere g sp diskRadius
      if curRemoveCnt < minRemoveCnt then
        getBestLoop g diskRadius k rest (i + 1) (some sp) curRemoveCnt
      else
        getBestLoop g diskRadius k rest (i + 1) best minRemoveCnt
    else
      best

/-- `getBestPrecomputedMontecarloSample`: linear best-of-k scan over the
occupants of one grid cell. -/
def getBestPrecomputedMontecarloSample (cl : Cell) (g : SHTModel)
    (diskRadius : ℚ) (bestSamplePoolSize : ℕ) : Option Vec3 :=
  getBestLoop g diskRadius bestSamplePoolSize (occupantsOf g cl) 0 none intMaxC

/-- Modelled from the spec: the `std::shuffle` of `AllocatedCells` with the
`MarsenneTwisterURBG` functor — a seeded uniform permutation (section 4.3
step 2), realised Fisher-Yates-style with indices drawn from the source's
integer stream. -/
def shuffleGo (sigma : ℕ → ℕ) : ℕ → ℕ → List Cell → List Cell
  | 0, _, _ => []
  | _ + 1, _, [] => []
  | fuel + 1, k, a :: rest =>
    let l := a :: rest
    let i := sigma k % l.length
    l.getD i (0, 0, 0) :: shuffleGo sigma fuel (k + 1) (l.eraseIdx i)

/-- Modelled from the spec: shuffle entry point. -/
def shuffleModel (sigma : ℕ → ℕ) (l : List Cell) : List Cell :=
  shuffleGo sigma l.length 0 l

/-- One pass of the pruning `while` loop: the `for` over the (snapshot of
the) allocated cell list.  A cell that meanwhile emptied is skipped;
otherwise the best precomputed sample of the cell is accepted into the
output and a sphere of the disk radius is removed around it.  `none` models
the undefined behaviour of dereferencing the uninitialized `bestSample`
pointer. -/
def passLoop (diskRadius : ℚ) (k : ℕ) :
    List Cell → SHTModel → List Vec3 → Option (SHTModel × List Vec3)
  | [], g, out => some (g, out)
  | cl :: rest, g, out =>
    if EmptyCell g cl then
      passLoop diskRadius k rest g out
    else
      match getBestPrecomputedMontecarloSample cl g diskRadius k with
      | none => none
      | some sp =>
        passLoop diskRadius k rest (RemoveInSphere g sp diskRadius) (out ++ [sp])

/-- The outer `while (!montecarloSHT.AllocatedCells.empty())` loop of
`PoissonDiskPruning`, with fuel: run one pass over the allocated cells,
refresh the allocated cell list, repeat. -/
def pruneLoop (diskRadius : ℚ) (k : ℕ) :
    ℕ → SHTModel → List Vec3 → Option (List Vec3 × ℕ)
  | 0, _, _ => none
  | fuel + 1, g, out =>
    if g.alloc.isEmpty then
      some (out, out.length)
    else
      match passLoop diskRadius k g.alloc g out with
      | none => none
      | some (g', out') => pruneLoop diskRadius k fuel (UpdateAllocatedCells g') out'

/-- `PoissonDiskPruning`: build the spatial hash table over the dense pool,
shuffle the allocated cells, unconditionally accept every mesh vertex
(removing a sphere around each), refresh the allocated cells, then run the
greedy pruning loop.  The returned number is the final `sampleNum`.  `none`
models a run in which one of the unbounded source loops had not exited
within `fuel` iterations, or the undefined behaviour inside
`getBestPrecomputedMontecarloSample`. -/
def PoissonDiskPruning (fuel : ℕ) (src : RandomSource) (m : SFMeshModel)
    (pool : List Vec3) (diskRadius : ℚ) (bestSamplePoolSize : ℕ) :
    Option (List Vec3 × ℕ) :=
  match InitSpatialHashTable fuel m pool diskRadius with
  | none => none
  | some g0 =>
    let g1 := { g0 with alloc := shuffleModel src.nat g0.alloc }
    let seeded := m.verts.foldl
      (fun s v => (RemoveInSphere s.1 v diskRadius, s.2 ++ [v])) (g1, [])
    pruneLoop diskRadius bestSamplePoolSize fuel
      (UpdateAllocatedCells seeded.1) seeded.2

/-- The cumulative-area table of `montecarlo_sampling` minus its leading
entry: `intervals[i+1] = (intervals[i].first + area(face_i), face_i)`,
faces identified by their index. -/
def mcIntervalsAux : List FaceModel → ℚ → ℕ → List (ℚ × ℕ)
  | [], _, _ => []
  | f :: rest, acc, i => (acc + f.area, i) :: mcIntervalsAux rest (acc + f.area) (i + 1)

/-- The full cumulative-area table: `intervals[0] = (0, *faces_begin())`
(face index 0) followed by the running sums. -/
def mcIntervals (faces : List FaceModel) : List (ℚ × ℕ) :=
  (0, 0) :: mcIntervalsAux faces 0 0

/-- Total mesh area: `intervals.back().first`. -/
def mcMeshArea (faces : List FaceModel) : ℚ :=
  ((mcIntervals faces).getLast?.getD (0, 0)).1

/-- Lexicographic `<` on `std::pair<float, Face>`: first the cumulative
area, then the face handle (its index). -/
def pairLt (a b : ℚ × ℕ) : Prop :=
  a.1 < b.1 ∨ (a.1 = b.1 ∧ a.2 < b.2)

instance (a b : ℚ × ℕ) : Decidable (pairLt a b) := by
  unfold pairLt; infer_instance

/-- Index returned by `std::lower_bound` on the (sorted) interval table:
the position of the first entry not less than the key, or the table length
when every entry is less. -/
def lbIdx : List (ℚ × ℕ) → (ℚ × ℕ) → ℕ
  | [], _ => 0
  | e :: rest, key => if pairLt e key then lbIdx rest key + 1 else 0

/-- The four `assert`s guarding the binary search in `montecarlo_sampling`:
the iterator is neither `begin` nor `end`, the previous entry is `< val`,
and the found entry is `>= val`. -/
def mcAssertOk (faces : List FaceModel) (val : ℚ) : Bool :=
  let ivs := mcIntervals faces
  let idx := lbIdx ivs (val, 0)
  decide (idx ≠ 0 ∧ idx ≠ ivs.length ∧
    (ivs.getD (idx - 1) (0, 0)).1 < val ∧ val ≤ (ivs.getD idx (0, 0)).1)

/-- The surface point of one draw: the face selected by the search,
combined barycentrically (`v0*t[0] + v1*t[1] + v2*t[2]`). -/
def mcPoint (faces : List FaceModel) (val : ℚ) (t : ℚ × ℚ × ℚ) : Vec3 :=
  let ivs := mcIntervals faces
  let idx := lbIdx ivs (val, 0)
  let f := faces.getD (ivs.getD idx (0, 0)).2 ⟨⟨0, 0, 0⟩, ⟨0, 0, 0⟩, ⟨0, 0, 0⟩, 0⟩
  vadd (vadd (vsmul f.v0 t.1) (vsmul f.v1 t.2.1)) (vsmul f.v2 t.2.2)

/-- The draw loop of `montecarlo_sampling`: draw `i` uses
`val = meshArea * RandomDouble01()` and a barycentric triple; a draw whose
guarding assertions fail aborts the run (modelled as `none`). -/
def mcLoop (src : RandomSource) (faces : List FaceModel) : ℕ → ℕ → Option (List Vec3)
  | _, 0 => some []
  | i, n + 1 =>
    let val := mcMeshArea faces * src.unit i
    if mcAssertOk faces val then
      (mcLoop src faces (i + 1) n).map (mcPoint faces val (src.bary i) :: ·)
    else
      none

/-- `montecarlo_sampling`: area-weighted dense sampling of
`used_sampling_points_number` points from the mesh faces. -/
def montecarlo_sampling (src : RandomSource) (m : SFMeshModel) (count : ℕ) :
    Option (List Vec3) :=
  mcLoop src m.faces 0 count

/-- One calibration trial as recorded for analysis: the radius passed to
`PoissonDiskPruning` and the dense pool it consumed. -/
abbrev Trial := ℚ × List Vec3

/-- The first bracketing `do ... while (RangeMinRadNum < sampling_points_number)`
loop of `PoissonDiskPruningByNumber`: halve the min radius and rerun the
pruning until the sample count reaches the target.  Returns the final
radius, count, output and the trial trace; `none` when the loop had not
exited within `fuel` iterations (the source imposes no cap). -/
def bracketMinLoop (pf : ℕ) (src : RandomSource) (m : SFMeshModel)
    (pool : List Vec3) (target k : ℕ) :
    ℕ → ℚ → List Trial → Option (ℚ × ℕ × List Vec3 × List Trial)
  | 0, _, _ => none
  | fuel + 1, rad, tr =>
    let rad' := rad / 2
    match PoissonDiskPruning pf src m pool rad' k with
    | none => none
    | some (out, cnt) =>
      let tr' := tr ++ [(rad', pool)]
      if cnt < target then bracketMinLoop pf src m pool target k fuel rad' tr'
      else some (rad', cnt, out, tr')

/-- The second bracketing `do ... while (RangeMaxRadNum > sampling_points_number)`
loop: double the max radius until the count falls to the target or below. -/
def bracketMaxLoop (pf : ℕ) (src : RandomSource) (m : SFMeshModel)
    (pool : List Vec3) (target k : ℕ) :
    ℕ → ℚ → List Trial → Option (ℚ × ℕ × List Vec3 × List Trial)
  | 0, _, _ => none
  | fuel + 1, rad, tr =>
    let rad' := rad * 2
    match PoissonDiskPruning pf src m pool rad' k with
    | none => none
    | some (out, cnt) =>
      let tr' := tr ++ [(rad', pool)]
      if target < cnt then bracketMaxLoop pf src m pool target k fuel rad' tr'
      else some (rad', cnt, out, tr')

/-- The bisection `while (iterCnt < maxIter && ...)` loop: while the count
is outside the tolerance band, rerun the pruning at the bracket midpoint and
move the bracket that the count overshoots. -/
def bisectLoop (pf : ℕ) (src : RandomSource) (m : SFMeshModel)
    (pool : List Vec3) (target k nmin nmax : ℕ) :
    ℕ → ℚ → ℚ → ℚ → ℕ → List Vec3 → List Trial →
    Option (List Vec3 × ℕ × ℚ × List Trial)
  | 0, _, _, curRadius, cnt, out, tr => some (out, cnt, curRadius, tr)
  | it + 1, minRad, maxRad, curRadius, cnt, out, tr =>
    if cnt < nmin ∨ nmax < cnt then
      let cur' := (maxRad + minRad) / 2
      match PoissonDiskPruning pf src m pool cur' k with
      | none => none
      | some (out', cnt') =>
        let minRad' := if target < cnt' then cur' else minRad
        let maxRad' := if cnt' < target then cur' else maxRad
        bisectLoop pf src m pool target k nmin nmax it minRad' maxRad' cur' cnt' out'
          (tr ++ [(cur', pool)])
    else
      some (out, cnt, curRadius, tr)

/-- `PoissonDiskPruningByNumber`: establish the radius bracket from the
initial guess `mesh_bbox.diagonal() / 50`, then bisect until the count lies
in `[target*(1-tolerance), target*(1+tolerance)]` or `maxIter` is exhausted.
Returns the final point set, count, achieved radius, and the trace of every
`PoissonDiskPruning` trial (radius and the dense pool it consumed).  The
single dense pool argument `pool` is the `montecarlo_cloud` parameter of the
source. -/
def PoissonDiskPruningByNumber (pf bf : ℕ) (src : RandomSource)
    (m : SFMeshModel) (pool : List Vec3) (target : ℕ) (tolerance : ℚ)
    (k maxIter : ℕ) : Option (List Vec3 × ℕ × ℚ × List Trial) :=
  let nmin := (ratFloorZ ((target : ℚ) * (1 - tolerance))).toNat
  let nmax := (ratFloorZ ((target : ℚ) * (1 + tolerance))).toNat
  let r0 := diagQ m / 50
  match bracketMinLoop pf src m pool target k bf r0 [] with
  | none => none
  | some (_minRad, _minCnt, _out1, tr1) =>
    match bracketMaxLoop pf src m pool target k bf r0 tr1 with
    | none => none
    | some (maxRad, cnt2, out2, tr2) =>
      bisectLoop pf src m pool target k nmin nmax maxIter _minRad maxRad maxRad
        cnt2 out2 tr2

/-- Two points are `r`-separated when their Euclidean distance is at least
`r`, expressed over squared quantities for nonnegative `r`. -/
def sepGE (r : ℚ) (p q : Vec3) : Prop := r ^ 2 ≤ dist2 p q

instance (r : ℚ) (p q : Vec3) : Decidable (sepGE r p q) := by
  unfold sepGE; infer_instance

/-- A list of points is an `r`-separated packing when all its pairs are
`r`-separated. -/
def sepList (r : ℚ) (l : List Vec3) : Prop := l.Pairwise (sepGE r)

instance (r : ℚ) (l : List Vec3) : Decidable (sepList r l) := by
  unfold sepList; infer_instance

/-- The maximum cardinality of an `r`-separated sub-packing of a point
list. -/
def maxSep (r : ℚ) (pool : List Vec3) : ℕ :=
  (pool.sublists.filter (fun s => decide (sepList r s))).foldr (fun s m => max s.length m) 0

/-- Chebyshev distance between two points (largest coordinate gap); two
points landing in a common grid cell at cell size `c` have Chebyshev
distance below `c` plus one cell, and conversely a cell size at most the
Chebyshev distance separates them. -/
def chebDist (p q : Vec3) : ℚ :=
  max |p.x - q.x| (max |p.y - q.y| |p.z - q.z|)

/-- The smallest Chebyshev distance between two distinct points of a list
(at most 1 by convention when no distinct pair exists). -/
def minGap (pool : List Vec3) : ℚ :=
  ((pool ×ˢ pool).filter (fun pr => decide (pr.1 ≠ pr.2))).foldr
    (fun pr m => min (chebDist pr.1 pr.2) m) 1

/-- A deterministic random source used by the concrete runs below: every
unit draw is 0, every integer draw is 0 (an identity shuffle), every
barycentric draw is the first vertex. -/
def srcZero : RandomSource := ⟨fun _ => 0, fun _ => 0, fun _ => (1, 0, 0)⟩

/-- Concrete mesh for the monotonicity analysis: no vertices, bounding box
spanning the dense pool. -/
def mesh7 : SFMeshModel := ⟨[], [], ⟨0, 0, -9/10⟩, ⟨9/10, 11/10, 0⟩⟩

/-- Concrete dense pool: a hub point at the origin with two satellites at
distance 9/10 and a fourth point at distance 11/10 above the hub. -/
def pool7 : List Vec3 := [⟨0, 11/10, 0⟩, ⟨0, 0, 0⟩, ⟨9/10, 0, 0⟩, ⟨0, 0, -9/10⟩]

/-- Concrete mesh for the calibration analysis: no vertices, bounding box
with an exactly rational diagonal (length 5). -/
def mesh3 : SFMeshModel := ⟨[], [], ⟨0, 0, 0⟩, ⟨3, 4, 0⟩⟩

/-- Concrete mesh with two vertices at distance 1/2. -/
def mesh1 : SFMeshModel := ⟨[⟨0, 0, 0⟩, ⟨1/2, 0, 0⟩], [], ⟨0, 0, 0⟩, ⟨1/2, 0, 0⟩⟩

/-- Concrete dense pool far away from the two vertices of `mesh1`. -/
def pool1 : List Vec3 := [⟨5, 5, 5⟩]

/-- Concrete grid holding one sample at distance 3/10 from the origin. -/
def grid9 : SHTModel := ⟨1, ⟨0, 0, 0⟩, [⟨3/10, 0, 0⟩], []⟩

/-- Concrete one-face mesh of area 1. -/
def faces5 : List FaceModel := [⟨⟨0, 0, 0⟩, ⟨1, 0, 0⟩, ⟨0, 1, 0⟩, 1⟩]

/-- Concrete mesh wrapping `faces5`. -/
def mesh5 : SFMeshModel := ⟨[], faces5, ⟨0, 0, 0⟩, ⟨1, 1, 0⟩⟩

/-- Concrete mesh for the occupancy-loop analysis. -/
def mesh6 : SFMeshModel := ⟨[], [], ⟨0, 0, 0⟩, ⟨1, 1, 1⟩⟩

/-- Concrete dense pool of 101 coincident points. -/
def pool6 : List Vec3 := List.replicate 101 ⟨0, 0, 0⟩

section Theorems

/- The Batteries rational arithmetic operations are `@[irreducible]`, which
blocks `decide`-style evaluation of the embedded program on concrete
inputs; all runs in this development are small and exact. -/
attribute [local semireducible] Rat.mul Rat.add Rat.sub Rat.inv

theorem ratFloorZ_eq (q : ℚ) : ratFloorZ q = ⌊q⌋ := Rat.floor_def.symm

theorem dist2_comm (p q : Vec3) : dist2 p q = dist2 q p := by
  unfold dist2; ring

theorem dist2_nonneg (p q : Vec3) : 0 ≤ dist2 p q := by
  unfold dist2; positivity

theorem dist2_self (p : Vec3) : dist2 p p = 0 := by
  unfold dist2; ring

theorem CountInSphere_le_live (g : SHTModel) (c : Vec3) (r : ℚ) :
    CountInSphere g c r ≤ g.live.length :=
  List.length_filter_le _ _

theorem getBestLoop_some_spec (g : SHTModel) (r : ℚ) (k : ℕ) :
    ∀ (l : List Vec3) (i : ℕ) (b : Vec3),
      ∃ p, getBestLoop g r k l i (some b) (CountInSphere g b r) = some p ∧
        (p = b ∨ p ∈ l.take (k - i)) ∧
        CountInSphere g p r ≤ CountInSphere g b r ∧
        ∀ q ∈ l.take (k - i), CountInSphere g p r ≤ CountInSphere g q r := by
  intro l
  induction l with
  | nil =>
    intro i b
    exact ⟨b, rfl, Or.inl rfl, le_refl _, by simp⟩
  | cons x rest ih =>
    intro i b
    by_cases hik : i < k
    · have hk1 : k - i = (k - (i + 1)) + 1 := by omega
      have htake : (x :: rest).take (k - i) = x :: rest.take (k - (i + 1)) := by
        rw [hk1, List.take_succ_cons]
      by_cases hlt : CountInSphere g x r < CountInSphere g b r
      · obtain ⟨p, hp, hmem, hle, hall⟩ := ih (i + 1) x
        refine ⟨p, ?_, ?_, ?_, ?_⟩
        · simpa [getBestLoop, hik, hlt] using hp
        · rcases hmem with h | h
          · exact Or.inr (by rw [htake, h]; exact List.mem_cons_self _ _)
          · exact Or.inr (by rw [htake]; exact List.mem_cons_of_mem _ h)
        · exact le_trans hle (le_of_lt hlt)
        · intro q hq
          rw [htake] at hq
          rcases List.mem_cons.1 hq with h | h
          · rw [h]; exact hle
          · exact hall q h
      · obtain ⟨p, hp, hmem, hle, hall⟩ := ih (i + 1) b
        refine ⟨p, ?_, ?_, hle, ?_⟩
        · simpa [getBestLoop, hik, hlt] using hp
        · rcases hmem with h | h
          · exact Or.inl h
          · exact Or.inr (by rw [htake]; exact List.mem_cons_of_mem _ h)
        · intro q hq
          rw [htake] at hq
          rcases List.mem_cons.1 hq with h | h
          · rw [h]
            exact le_trans hle (not_lt.1 hlt)
          · exact hall q h
    · have htake : (x :: rest).take (k - i) = [] := by
        have : k - i = 0 := by omega
        rw [this, List.take_zero]
      refine ⟨b, ?_, Or.inl rfl, le_refl _, ?_⟩
      · simp [getBestLoop, hik]
      · rw [htake]; intro q hq; cases hq

theorem getBest_some (cl : Cell) (g : SHTModel) (r : ℚ) (k : ℕ)
    (hne : occupantsOf g cl ≠ []) (hk : 1 ≤ k) (hlen : g.live.length < intMaxC) :
    ∃ p, getBestPrecomputedMontecarloSample cl g r k = some p ∧
      p ∈ (occupantsOf g cl).take k ∧
      ∀ q ∈ (occupantsOf g cl).take k, CountInSphere g p r ≤ CountInSphere g q r := by
  obtain ⟨x, rest, hxr⟩ : ∃ x rest, occupantsOf g cl = x :: rest := by
    cases h : occupantsOf g cl with
    | nil => exact absurd h hne
    | cons x rest => exact ⟨x, rest, rfl⟩
  have hcnt : CountInSphere g x r < intMaxC :=
    lt_of_le_of_lt (CountInSphere_le_live g x r) hlen
  have hk0 : 0 < k := hk
  obtain ⟨p, hp, hmem, hle, hall⟩ := getBestLoop_some_spec g r k rest 1 x
  have htake : (x :: rest).take k = x :: rest.take (k - 1) := by
    conv_lhs => rw [show k = (k - 1) + 1 by omega]
    rw [List.take_succ_cons]
  refine ⟨p, ?_, ?_, ?_⟩
  · unfold getBestPrecomputedMontecarloSample
    rw [hxr]
    simpa [getBestLoop, hk0, hcnt] using hp
  · rw [hxr, htake]
    rcases hmem with h | h
    · rw [h]; exact List.mem_cons_self _ _
    · exact List.mem_cons_of_mem _ h
  · intro q hq
    rw [hxr, htake] at hq
    rcases List.mem_cons.1 hq with h | h
    · rw [h]; exact hle
    · exact hall q h

theorem take_min_eq (l : List Vec3) (k : ℕ) : l.take (min k l.length) = l.take k := by
  rcases le_total k l.length with h | h
  · rw [min_eq_left h]
  · rw [min_eq_right h, List.take_of_length_le h, List.take_of_length_le (le_refl _)]

/-- C10: for every grid cell with at least one occupant (the pruning loop
guards each call by `EmptyCell`) and every `bestSamplePoolSize >= 1`,
`getBestPrecomputedMontecarloSample` returns (rather than leaving the
`bestSample` pointer uninitialized) one of the first
`min(bestSamplePoolSize, occupant-count)` occupants of the cell, namely one
minimizing `CountInSphere` at the disk radius among those scanned.  The
bound on the occupancy size reflects the `int` sentinel
`std::numeric_limits<int>::max()` that the first scanned count must
undercut. -/
theorem C10_getBest_safe (cl : Cell) (g : SHTModel) (r : ℚ) (k : ℕ)
    (hcell : EmptyCell g cl = false) (hk : 1 ≤ k)
    (hlen : g.live.length < intMaxC) :
    ∃ p, getBestPrecomputedMontecarloSample cl g r k = some p ∧
      p ∈ (occupantsOf g cl).take (min k (occupantsOf g cl).length) ∧
      ∀ q ∈ (occupantsOf g cl).take (min k (occupantsOf g cl).length),
        CountInSphere g p r ≤ CountInSphere g q r := by
  have hne : occupantsOf g cl ≠ [] := by
    intro h
    rw [EmptyCell, h] at hcell
    simp at hcell
  obtain ⟨p, hp, hmem, hall⟩ := getBest_some cl g r k hne hk hlen
  rw [take_min_eq]
  exact ⟨p, hp, hmem, hall⟩

/-- Witness for C10 at a concrete cell: the grid `grid9` holds one sample
in cell `(0,0,0)`. -/
theorem C10_getBest_safe_witness :
    (EmptyCell grid9 (0, 0, 0) = false ∧ 1 ≤ 1 ∧ grid9.live.length < intMaxC) ∧
    ∃ p, getBestPrecomputedMontecarloSample (0, 0, 0) grid9 (1/2) 1 = some p ∧
      p ∈ (occupantsOf grid9 (0, 0, 0)).take
        (min 1 (occupantsOf grid9 (0, 0, 0)).length) ∧
      ∀ q ∈ (occupantsOf grid9 (0, 0, 0)).take
        (min 1 (occupantsOf grid9 (0, 0, 0)).length),
        CountInSphere grid9 p (1/2) ≤ CountInSphere grid9 q (1/2) :=
  ⟨⟨by decide, by decide, by decide⟩,
    C10_getBest_safe (0, 0, 0) grid9 (1/2) 1 (by decide) (by decide) (by decide)⟩

/-- C9: `checkPoissonDisk` does not report the disk-exclusion constraint
the claim describes: it compares the unsquared Euclidean distance against
`r2 = radius * radius`.  On the grid `grid9` holding one sample at distance
3/10 from the query point, with radius 1/2 the sample violates the disk
constraint (3/10 < 1/2), the behaviour described by the claim returns
`false`, yet the source function returns `true` because 3/10 is not below
`r2 = 1/4`. -/
theorem C9_check_distance_bug :
    checkPoissonDisk grid9 ⟨0, 0, 0⟩ (1/2) = true ∧
    checkPoissonDiskClaimed grid9 ⟨0, 0, 0⟩ (1/2) = false ∧
    (⟨3/10, 0, 0⟩ : Vec3) ∈ GridGetInBox grid9 ⟨0, 0, 0⟩ (1/2) ∧
    distLt ⟨0, 0, 0⟩ ⟨3/10, 0, 0⟩ (1/2) :=
  ⟨by decide, by decide, by decide, by decide⟩

theorem lbIdx_le_length (key : ℚ × ℕ) :
    ∀ l : List (ℚ × ℕ), lbIdx l key ≤ l.length := by
  intro l
  induction l with
  | nil => exact le_refl 0
  | cons e rest ih =>
    by_cases h : pairLt e key
    · simpa [lbIdx, h] using ih
    · simp [lbIdx, h]

theorem lbIdx_lt_length (key : ℚ × ℕ) :
    ∀ l : List (ℚ × ℕ), ∀ e ∈ l, ¬ pairLt e key → lbIdx l key < l.length := by
  intro l
  induction l with
  | nil => intro e he; cases he
  | cons x rest ih =>
    intro e he hnot
    by_cases hx : pairLt x key
    · have hme : e ∈ rest := by
        rcases List.mem_cons.1 he with h | h
        · exact absurd (h ▸ hx) hnot
        · exact h
      have := ih e hme hnot
      simp only [lbIdx, hx, if_pos, List.length_cons]
      omega
    · simp [lbIdx, hx]

theorem lbIdx_prefix_lt (key : ℚ × ℕ) :
    ∀ l : List (ℚ × ℕ), ∀ j < lbIdx l key, pairLt (l.getD j (0, 0)) key := by
  intro l
  induction l with
  | nil => intro j hj; simp [lbIdx] at hj
  | cons x rest ih =>
    intro j hj
    by_cases hx : pairLt x key
    · cases j with
      | zero => simpa using hx
      | succ j' =>
        simp only [lbIdx, hx, if_pos] at hj
        have : j' < lbIdx rest key := by omega
        simpa using ih j' this
    · simp [lbIdx, hx] at hj

theorem lbIdx_at_not_lt (key : ℚ × ℕ) :
    ∀ l : List (ℚ × ℕ), lbIdx l key < l.length →
      ¬ pairLt (l.getD (lbIdx l key) (0, 0)) key := by
  intro l
  induction l with
  | nil => intro h; simp [lbIdx] at h
  | cons x rest ih =>
    intro hlen
    by_cases hx : pairLt x key
    · simp only [lbIdx, hx, if_pos, List.length_cons] at hlen ⊢
      simpa using ih (by omega)
    · simp only [lbIdx, hx, if_neg, List.getD_cons_zero]
      exact hx

theorem getLastD_mem : ∀ l : List (ℚ × ℕ), l ≠ [] → l.getLast?.getD (0, 0) ∈ l := by
  intro l
  induction l with
  | nil => intro h; exact absurd rfl h
  | cons x rest ih =>
    intro _
    cases hr : rest with
    | nil => simp
    | cons y rest' =>
      rw [List.getLast?_cons_cons]
      right
      have := ih (by simp [hr])
      rw [hr] at this
      exact this

theorem mcMeshArea_mem (faces : List FaceModel) :
    ∃ e ∈ mcIntervals faces, e.1 = mcMeshArea faces := by
  refine ⟨(mcIntervals faces).getLast?.getD (0, 0), ?_, rfl⟩
  exact getLastD_mem _ (by simp [mcIntervals])

/-- C5 (amended): when the unit draw `u` is strictly positive (and below 1,
as the generator contract promises) and the total area is positive, the
value `val = meshArea * u` lies strictly inside the cumulative table and
all four assertions of `montecarlo_sampling` hold; a zero draw, which the
`[0,1)` contract allows, makes `val` equal the table's leading entry and
`lower_bound` return `begin()`, failing the `it != intervals.begin()`
assertion (see the counterexample). -/
theorem C5_assertions_amended (faces : List FaceModel) (u : ℚ)
    (hu0 : 0 < u) (hu1 : u < 1) (hA : 0 < mcMeshArea faces) :
    mcAssertOk faces (mcMeshArea faces * u) = true := by
  set A := mcMeshArea faces with hAdef
  set val := A * u with hval
  have hv0 : 0 < val := mul_pos hA hu0
  have hvA : val < A := by
    calc A * u < A * 1 := by exact (mul_lt_mul_left hA).2 hu1
    _ = A := mul_one A
  set l := mcIntervals faces with hldef
  set idx := lbIdx l (val, 0) with hidx
  have hne0 : idx ≠ 0 := by
    have hhead : pairLt (0, 0) (val, 0) := Or.inl hv0
    rw [hidx, hldef]
    unfold mcIntervals lbIdx
    rw [if_pos hhead]
    omega
  have hlt : idx < l.length := by
    obtain ⟨e, hmem, he⟩ := mcMeshArea_mem faces
    refine lbIdx_lt_length (val, 0) l e hmem ?_
    intro hpl
    rcases hpl with h | ⟨h, h2⟩
    · rw [he] at h; exact absurd h (not_lt.2 (le_of_lt hvA))
    · exact Nat.not_lt_zero _ h2
  have hprev : (l.getD (idx - 1) (0, 0)).1 < val := by
    have hj : idx - 1 < idx := by omega
    have := lbIdx_prefix_lt (val, 0) l (idx - 1) hj
    rcases this with h | ⟨_, h2⟩
    · exact h
    · exact absurd h2 (Nat.not_lt_zero _)
  have hcur : val ≤ (l.getD idx (0, 0)).1 := by
    have := lbIdx_at_not_lt (val, 0) l hlt
    by_contra hc
    exact this (Or.inl (not_le.1 hc))
  unfold mcAssertOk
  rw [decide_eq_true_eq]
  show idx ≠ 0 ∧ idx ≠ l.length ∧ (l.getD (idx - 1) (0, 0)).1 < val ∧
    val ≤ (l.getD idx (0, 0)).1
  exact ⟨hne0, Nat.ne_of_lt hlt, hprev, hcur⟩

/-- Witness for C5 (amended) at the one-face mesh and the draw 1/2. -/
theorem C5_assertions_amended_witness :
    ((0 : ℚ) < 1/2 ∧ (1/2 : ℚ) < 1 ∧ 0 < mcMeshArea faces5) ∧
    mcAssertOk faces5 (mcMeshArea faces5 * (1/2)) = true :=
  ⟨⟨by norm_num, by norm_num, by decide⟩,
    C5_assertions_amended faces5 (1/2) (by norm_num) (by norm_num) (by decide)⟩

/-- Counterexample for C5 as stated: a legal zero draw of the `[0,1)` unit
generator yields `u = totalArea * 0 = 0`, which is not strictly inside the
table's range: the search returns the table head, the `it != begin`
assertion fails, and the one-point sampling run aborts. -/
theorem C5_counterexample :
    mcAssertOk faces5 (mcMeshArea faces5 * srcZero.unit 0) = false ∧
    montecarlo_sampling srcZero mesh5 1 = none :=
  ⟨by decide, by decide⟩

theorem sepGE_symm {r : ℚ} {p q : Vec3} (h : sepGE r p q) : sepGE r q p := by
  unfold sepGE at h ⊢
  rwa [dist2_comm]

theorem occupantsOf_subset (g : SHTModel) (cl : Cell) :
    ∀ p ∈ occupantsOf g cl, p ∈ g.live := by
  intro p hp
  exact (List.mem_filter.1 hp).1

theorem getBestLoop_mem (g : SHTModel) (r : ℚ) (k : ℕ) :
    ∀ (l : List Vec3) (i : ℕ) (b : Option Vec3) (mc : ℕ) (p : Vec3),
      getBestLoop g r k l i b mc = some p → b = some p ∨ p ∈ l := by
  intro l
  induction l with
  | nil => intro i b mc p h; exact Or.inl h
  | cons x rest ih =>
    intro i b mc p h
    by_cases hik : i < k
    · by_cases hlt : CountInSphere g x r < mc
      · simp only [getBestLoop, hik, if_pos, hlt] at h
        rcases ih (i + 1) (some x) (CountInSphere g x r) p h with h1 | h1
        · exact Or.inr (by rw [← Option.some_inj.1 h1]; exact List.mem_cons_self _ _)
        · exact Or.inr (List.mem_cons_of_mem _ h1)
      · simp only [getBestLoop, hik, if_pos, hlt, if_neg] at h
        rcases ih (i + 1) b mc p h with h1 | h1
        · exact Or.inl h1
        · exact Or.inr (List.mem_cons_of_mem _ h1)
    · simp only [getBestLoop, hik] at h
      exact Or.inl h

theorem getBest_mem (cl : Cell) (g : SHTModel) (r : ℚ) (k : ℕ) (p : Vec3)
    (h : getBestPrecomputedMontecarloSample cl g r k = some p) :
    p ∈ g.live := by
  unfold getBestPrecomputedMontecarloSample at h
  rcases getBestLoop_mem g r k (occupantsOf g cl) 0 none intMaxC p h with h1 | h1
  · cases h1
  · exact occupantsOf_subset g cl p h1

theorem RemoveInSphere_mem {g : SHTModel} {c : Vec3} {r : ℚ} {p : Vec3}
    (hp : p ∈ (RemoveInSphere g c r).live) : p ∈ g.live ∧ ¬ distLt p c r := by
  unfold RemoveInSphere at hp
  simp only [List.mem_filter, Bool.not_eq_eq_eq_not, Bool.not_true,
    decide_eq_false_iff_not] at hp
  exact hp

theorem not_distLt_sep {p q : Vec3} {r : ℚ} (hr : 0 < r) (h : ¬ distLt p q r) :
    sepGE r p q := by
  unfold distLt at h
  unfold sepGE
  push_neg at h
  exact h (le_of_lt hr)

theorem passLoop_inv (r : ℚ) (k : ℕ) (verts pool : List Vec3) (hr : 0 < r) :
    ∀ (cells : List Cell) (g : SHTModel) (out acc : List Vec3)
      (g2 : SHTModel) (out2 : List Vec3),
      passLoop r k cells g out = some (g2, out2) →
      out = verts ++ acc →
      (∀ p ∈ g.live, p ∈ pool) →
      (∀ p ∈ g.live, ∀ q ∈ out, sepGE r p q) →
      (∀ a ∈ acc, a ∈ pool) →
      acc.Pairwise (sepGE r) →
      (∀ a ∈ acc, ∀ v ∈ verts, sepGE r a v) →
      ∃ acc2, out2 = verts ++ acc2 ∧
        (∀ p ∈ g2.live, p ∈ pool) ∧
        (∀ p ∈ g2.live, ∀ q ∈ out2, sepGE r p q) ∧
        (∀ a ∈ acc2, a ∈ pool) ∧
        acc2.Pairwise (sepGE r) ∧
        (∀ a ∈ acc2, ∀ v ∈ verts, sepGE r a v) := by
  intro cells
  induction cells with
  | nil =>
    intro g out acc g2 out2 h hout hsub hinv hap hpw hav
    obtain ⟨h1, h2⟩ : g = g2 ∧ out = out2 := by
      simpa [passLoop, Prod.ext_iff] using h
    subst h1; subst h2
    exact ⟨acc, hout, hsub, hinv, hap, hpw, hav⟩
  | cons cl rest ih =>
    intro g out acc g2 out2 h hout hsub hinv hap hpw hav
    by_cases hempty : EmptyCell g cl
    · simp only [passLoop, hempty, if_pos] at h
      exact ih g out acc g2 out2 h hout hsub hinv hap hpw hav
    · simp only [passLoop, hempty, if_neg, Bool.not_eq_true] at h
      cases hbest : getBestPrecomputedMontecarloSample cl g r k with
      | none => rw [hbest] at h; cases h
      | some sp =>
        rw [hbest] at h
        have hsp_live : sp ∈ g.live := getBest_mem cl g r k sp hbest
        have hsp_pool : sp ∈ pool := hsub sp hsp_live
        have hsp_out : ∀ q ∈ out, sepGE r sp q := hinv sp hsp_live
        refine ih (RemoveInSphere g sp r) (out ++ [sp]) (acc ++ [sp]) g2 out2 h ?_ ?_ ?_ ?_ ?_ ?_
        · rw [hout, List.append_assoc]
        · intro p hp
          exact hsub p (RemoveInSphere_mem hp).1
        · intro p hp q hq
          obtain ⟨hpl, hpd⟩ := RemoveInSphere_mem hp
          rcases List.mem_append.1 hq with h1 | h1
          · exact hinv p hpl q h1
          · rw [List.mem_singleton.1 h1]
            exact sepGE_symm (sepGE_symm (not_distLt_sep hr hpd))
        · intro a ha
          rcases List.mem_append.1 ha with h1 | h1
          · exact hap a h1
          · rw [List.mem_singleton.1 h1]; exact hsp_pool
        · rw [List.pairwise_append]
          refine ⟨hpw, List.pairwise_singleton _ _, ?_⟩
          intro a ha b hb
          rw [List.mem_singleton.1 hb]
          have ha_out : a ∈ out := by
            rw [hout]; exact List.mem_append_right _ ha
          exact sepGE_symm (hsp_out a ha_out)
        · intro a ha v hv
          rcases List.mem_append.1 ha with h1 | h1
          · exact hav a h1 v hv
          · rw [List.mem_singleton.1 h1]
            have hv_out : v ∈ out := by
              rw [hout]; exact List.mem_append_left _ hv
            exact hsp_out v hv_out

theorem pruneLoop_inv (r : ℚ) (k : ℕ) (verts pool : List Vec3) (hr : 0 < r) :
    ∀ (fuel : ℕ) (g : SHTModel) (out acc res : List Vec3) (n : ℕ),
      pruneLoop r k fuel g out = some (res, n) →
      out = verts ++ acc →
      (∀ p ∈ g.live, p ∈ pool) →
      (∀ p ∈ g.live, ∀ q ∈ out, sepGE r p q) →
      (∀ a ∈ acc, a ∈ pool) →
      acc.Pairwise (sepGE r) →
      (∀ a ∈ acc, ∀ v ∈ verts, sepGE r a v) →
      ∃ acc2, res = verts ++ acc2 ∧ n = res.length ∧
        (∀ a ∈ acc2, a ∈ pool) ∧
        acc2.Pairwise (sepGE r) ∧
        (∀ a ∈ acc2, ∀ v ∈ verts, sepGE r a v) := by
  intro fuel
  induction fuel with
  | zero => intro g out acc res n h; cases h
  | succ fuel ih =>
    intro g out acc res n h hout hsub hinv hap hpw hav
    by_cases halloc : g.alloc.isEmpty
    · simp only [pruneLoop, halloc, if_pos] at h
      obtain ⟨h1, h2⟩ : out = res ∧ out.length = n := by
        simpa [Prod.ext_iff] using h
      subst h1
      exact ⟨acc, hout, h2.symm, hap, hpw, hav⟩
    · simp only [pruneLoop, halloc, if_neg, Bool.not_eq_true] at h
      cases hpass : passLoop r k g.alloc g out with
      | none => rw [hpass] at h; cases h
      | some go =>
        rw [hpass] at h
        obtain ⟨g2, out2⟩ := go
        obtain ⟨acc2, hout2, hsub2, hinv2, hap2, hpw2, hav2⟩ :=
          passLoop_inv r k verts pool hr g.alloc g out acc g2 out2 hpass hout hsub hinv
            hap hpw hav
        exact ih (UpdateAllocatedCells g2) out2 acc2 res n h hout2 hsub2 hinv2 hap2
          hpw2 hav2

theorem initLoop_live (m : SFMeshModel) (pool : List Vec3) :
    ∀ (fuel : ℕ) (c : ℚ) (g : SHTModel),
      initLoop m pool fuel c = some g → g.live = pool := by
  intro fuel
  induction fuel with
  | zero => intro c g h; cases h
  | succ fuel ih =>
    intro c g h
    by_cases hocc : 100 < (pool.length : ℚ) / ((buildGrid m pool c).alloc.length : ℚ)
    · simp only [initLoop, hocc, if_pos] at h
      exact ih (c / 2) g h
    · simp only [initLoop, hocc, if_neg] at h
      rw [← Option.some_inj.1 h]
      rfl

theorem seedFold_inv (r : ℚ) (hr : 0 < r) :
    ∀ (vs : List Vec3) (g : SHTModel) (out : List Vec3) (gf : SHTModel)
      (outf : List Vec3),
      vs.foldl (fun s v => (RemoveInSphere s.1 v r, s.2 ++ [v])) (g, out) = (gf, outf) →
      (∀ p ∈ g.live, ∀ q ∈ out, sepGE r p q) →
      outf = out ++ vs ∧
      (∀ p ∈ gf.live, p ∈ g.live) ∧
      (∀ p ∈ gf.live, ∀ q ∈ outf, sepGE r p q) := by
  intro vs
  induction vs with
  | nil =>
    intro g out gf outf h hinv
    obtain ⟨h1, h2⟩ : g = gf ∧ out = outf := by simpa [Prod.ext_iff] using h
    subst h1; subst h2
    exact ⟨(List.append_nil _).symm, fun p hp => hp, hinv⟩
  | cons v vs ih =>
    intro g out gf outf h hinv
    rw [List.foldl_cons] at h
    have hinv2 : ∀ p ∈ (RemoveInSphere g v r).live, ∀ q ∈ out ++ [v], sepGE r p q := by
      intro p hp q hq
      obtain ⟨hpl, hpd⟩ := RemoveInSphere_mem hp
      rcases List.mem_append.1 hq with hq1 | hq1
      · exact hinv p hpl q hq1
      · rw [List.mem_singleton.1 hq1]
        exact not_distLt_sep hr hpd
    obtain ⟨h1, h2, h3⟩ := ih (RemoveInSphere g v r) (out ++ [v]) gf outf h hinv2
    refine ⟨?_, ?_, h3⟩
    · rw [h1, List.append_assoc, List.singleton_append]
    · intro p hp
      exact (RemoveInSphere_mem (h2 p hp)).1

/-- Structure of every successful `PoissonDiskPruning` run with positive
radius: the output is the vertex list followed by accepted dense samples
that are drawn from the pool, pairwise `r`-separated, `r`-separated from
every vertex, and counted by `sampleNum`. -/
theorem prune_structure (fuel : ℕ) (src : RandomSource) (m : SFMeshModel)
    (pool : List Vec3) (r : ℚ) (k : ℕ) (out : List Vec3) (n : ℕ)
    (h : PoissonDiskPruning fuel src m pool r k = some (out, n)) (hr : 0 < r) :
    ∃ acc, out = m.verts ++ acc ∧ n = out.length ∧
      (∀ a ∈ acc, a ∈ pool) ∧
      acc.Pairwise (sepGE r) ∧
      (∀ a ∈ acc, ∀ v ∈ m.verts, sepGE r a v) := by
  unfold PoissonDiskPruning at h
  cases hinit : InitSpatialHashTable fuel m pool r with
  | none => rw [hinit] at h; cases h
  | some g0 =>
    rw [hinit] at h
    simp only [] at h
    rcases hseed : m.verts.foldl
        (fun s v => (RemoveInSphere s.1 v r, s.2 ++ [v]))
        ({ g0 with alloc := shuffleModel src.nat g0.alloc }, ([] : List Vec3)) with
      ⟨gf, outf⟩
    rw [hseed] at h
    have hlive0 : ({ g0 with alloc := shuffleModel src.nat g0.alloc } : SHTModel).live
        = pool := initLoop_live m pool fuel _ g0 hinit
    obtain ⟨houtf, hsubf, hinvf⟩ := seedFold_inv r hr m.verts _ [] gf outf hseed
      (by intro p hp q hq; cases hq)
    rw [List.nil_append] at houtf
    have hsubf' : ∀ p ∈ gf.live, p ∈ pool := by
      intro p hp
      have := hsubf p hp
      rwa [hlive0] at this
    obtain ⟨acc2, hres, hn, hap2, hpw2, hav2⟩ :=
      pruneLoop_inv r k m.verts pool hr fuel (UpdateAllocatedCells gf) outf
        ([] : List Vec3) out n h (by simp [houtf]) hsubf' hinvf
        (by intro a ha; cases ha) List.Pairwise.nil
        (by intro a ha; cases ha)
    exact ⟨acc2, hres, hn, hap2, hpw2, hav2⟩

/-- C1 (amended): in every point cloud produced by `PoissonDiskPruning`
with radius `r > 0`, the exclusion invariant holds for every pair involving
at least one dense-pool acceptance: the accepted dense samples are pairwise
at distance at least `r` (non-strict boundary: removal is strict `< r`) and
each is at distance at least `r` from every mesh vertex.  Pairs of mesh
vertices are exempt — vertices are accepted unconditionally, and two
vertices closer than `r` both appear (see the counterexample). -/
theorem C1_exclusion_amended (fuel : ℕ) (src : RandomSource) (m : SFMeshModel)
    (pool : List Vec3) (r : ℚ) (k : ℕ) (out : List Vec3) (n : ℕ)
    (h : PoissonDiskPruning fuel src m pool r k = some (out, n)) (hr : 0 < r) :
    ∃ acc, out = m.verts ++ acc ∧
      acc.Pairwise (sepGE r) ∧
      (∀ a ∈ acc, ∀ v ∈ m.verts, sepGE r a v) := by
  obtain ⟨acc, h1, _, _, h4, h5⟩ := prune_structure fuel src m pool r k out n h hr
  exact ⟨acc, h1, h4, h5⟩

/-- Witness for C1 (amended) at a concrete run: two vertices at distance
1/2 and one far dense point, radius 1. -/
theorem C1_exclusion_amended_witness :
    (0 : ℚ) < 1 ∧
    ∃ acc, ([⟨0, 0, 0⟩, ⟨1/2, 0, 0⟩, ⟨5, 5, 5⟩] : List Vec3) = mesh1.verts ++ acc ∧
      acc.Pairwise (sepGE 1) ∧
      (∀ a ∈ acc, ∀ v ∈ mesh1.verts, sepGE 1 a v) :=
  ⟨by norm_num,
    C1_exclusion_amended 50 srcZero mesh1 pool1 1 1 _ 3 (by decide) (by norm_num)⟩

/-- Counterexample for C1 as stated: the mesh `mesh1` has two distinct
vertices at distance 1/2 < 1; with radius 1 both are unconditionally
accepted, so the produced cloud contains two distinct points strictly
closer than the disk radius. -/
theorem C1_counterexample :
    PoissonDiskPruning 50 srcZero mesh1 pool1 1 1
      = some ([⟨0, 0, 0⟩, ⟨1/2, 0, 0⟩, ⟨5, 5, 5⟩], 3) ∧
    dist2 ⟨0, 0, 0⟩ ⟨1/2, 0, 0⟩ < 1 ^ 2 ∧
    (⟨0, 0, 0⟩ : Vec3) ≠ ⟨1/2, 0, 0⟩ :=
  ⟨by decide, by decide, by decide⟩

theorem seedFold_out (r : ℚ) :
    ∀ (vs : List Vec3) (g : SHTModel) (out : List Vec3),
      (vs.foldl (fun s v => (RemoveInSphere s.1 v r, s.2 ++ [v])) (g, out)).2
        = out ++ vs := by
  intro vs
  induction vs with
  | nil => intro g out; exact (List.append_nil _).symm
  | cons v vs ih =>
    intro g out
    rw [List.foldl_cons, ih, List.append_assoc, List.singleton_append]

theorem passLoop_prefix (r : ℚ) (k : ℕ) :
    ∀ (cells : List Cell) (g : SHTModel) (out : List Vec3) (g2 : SHTModel)
      (out2 : List Vec3),
      passLoop r k cells g out = some (g2, out2) → ∃ ext, out2 = out ++ ext := by
  intro cells
  induction cells with
  | nil =>
    intro g out g2 out2 h
    obtain ⟨_, h2⟩ : g = g2 ∧ out = out2 := by simpa [passLoop, Prod.ext_iff] using h
    exact ⟨[], by rw [← h2, List.append_nil]⟩
  | cons cl rest ih =>
    intro g out g2 out2 h
    by_cases hempty : EmptyCell g cl
    · simp only [passLoop, hempty, if_pos] at h
      exact ih g out g2 out2 h
    · simp only [passLoop, hempty, if_neg, Bool.not_eq_true] at h
      cases hbest : getBestPrecomputedMontecarloSample cl g r k with
      | none => rw [hbest] at h; cases h
      | some sp =>
        rw [hbest] at h
        obtain ⟨ext, hext⟩ := ih (RemoveInSphere g sp r) (out ++ [sp]) g2 out2 h
        exact ⟨[sp] ++ ext, by rw [hext, List.append_assoc]⟩

theorem pruneLoop_prefix (r : ℚ) (k : ℕ) :
    ∀ (fuel : ℕ) (g : SHTModel) (out res : List Vec3) (n : ℕ),
      pruneLoop r k fuel g out = some (res, n) → ∃ ext, res = out ++ ext := by
  intro fuel
  induction fuel with
  | zero => intro g out res n h; cases h
  | succ fuel ih =>
    intro g out res n h
    by_cases halloc : g.alloc.isEmpty
    · simp only [pruneLoop, halloc, if_pos] at h
      obtain ⟨h1, _⟩ : out = res ∧ out.length = n := by simpa [Prod.ext_iff] using h
      exact ⟨[], by rw [← h1, List.append_nil]⟩
    · simp only [pruneLoop, halloc, if_neg, Bool.not_eq_true] at h
      cases hpass : passLoop r k g.alloc g out with
      | none => rw [hpass] at h; cases h
      | some go =>
        rw [hpass] at h
        obtain ⟨g2, out2⟩ := go
        obtain ⟨ext1, hext1⟩ := passLoop_prefix r k g.alloc g out g2 out2 hpass
        obtain ⟨ext2, hext2⟩ := ih (UpdateAllocatedCells g2) out2 res n h
        exact ⟨ext1 ++ ext2, by rw [hext2, hext1, List.append_assoc]⟩

/-- C2: every mesh vertex position appears in the point cloud produced by
`PoissonDiskPruning`, for any radius (positive or not): the vertices are
unconditionally accepted, before any dense-pool candidate, so the output is
the vertex list followed by the pruned acceptances. -/
theorem C2_vertex_inclusion (fuel : ℕ) (src : RandomSource) (m : SFMeshModel)
    (pool : List Vec3) (r : ℚ) (k : ℕ) (out : List Vec3) (n : ℕ)
    (h : PoissonDiskPruning fuel src m pool r k = some (out, n)) :
    (∃ acc, out = m.verts ++ acc) ∧ ∀ v ∈ m.verts, v ∈ out := by
  unfold PoissonDiskPruning at h
  cases hinit : InitSpatialHashTable fuel m pool r with
  | none => rw [hinit] at h; cases h
  | some g0 =>
    rw [hinit] at h
    simp only [] at h
    rcases hseed : m.verts.foldl
        (fun s v => (RemoveInSphere s.1 v r, s.2 ++ [v]))
        ({ g0 with alloc := shuffleModel src.nat g0.alloc }, ([] : List Vec3)) with
      ⟨gf, outf⟩
    rw [hseed] at h
    have houtf : outf = m.verts := by
      have := seedFold_out r m.verts
        { g0 with alloc := shuffleModel src.nat g0.alloc } []
      rw [hseed, List.nil_append] at this
      exact this
    obtain ⟨ext, hext⟩ := pruneLoop_prefix r k fuel (UpdateAllocatedCells gf) outf out n h
    rw [houtf] at hext
    refine ⟨⟨ext, hext⟩, ?_⟩
    intro v hv
    rw [hext]
    exact List.mem_append_left _ hv

/-- Witness for C2 at the concrete run of `mesh1`: both vertices appear. -/
theorem C2_vertex_inclusion_witness :
    (∃ acc, ([⟨0, 0, 0⟩, ⟨1/2, 0, 0⟩, ⟨5, 5, 5⟩] : List Vec3) = mesh1.verts ++ acc) ∧
    ∀ v ∈ mesh1.verts, v ∈ ([⟨0, 0, 0⟩, ⟨1/2, 0, 0⟩, ⟨5, 5, 5⟩] : List Vec3) :=
  C2_vertex_inclusion 50 srcZero mesh1 pool1 1 1 _ 3 (by decide)

theorem le_foldMax (p : List Vec3 → Bool) :
    ∀ (L : List (List Vec3)) (s : List Vec3), s ∈ L → p s = true →
      s.length ≤ (L.filter p).foldr (fun t m => max t.length m) 0 := by
  intro L
  induction L with
  | nil => intro s hs; cases hs
  | cons t rest ih =>
    intro s hs hps
    rcases List.mem_cons.1 hs with h | h
    · subst h
      rw [List.filter_cons_of_pos hps, List.foldr_cons]
      exact le_max_left _ _
    · by_cases hpt : p t = true
      · rw [List.filter_cons_of_pos hpt, List.foldr_cons]
        exact le_trans (ih s h hps) (le_max_right _ _)
      · rw [List.filter_cons_of_neg (by simpa using hpt)]
        exact ih s h hps

theorem foldMax_mono (p q : List Vec3 → Bool)
    (himp : ∀ s, p s = true → q s = true) :
    ∀ L : List (List Vec3),
      (L.filter p).foldr (fun t m => max t.length m) 0 ≤
      (L.filter q).foldr (fun t m => max t.length m) 0 := by
  intro L
  induction L with
  | nil => exact le_refl 0
  | cons t rest ih =>
    by_cases hpt : p t = true
    · rw [List.filter_cons_of_pos hpt, List.filter_cons_of_pos (himp t hpt),
        List.foldr_cons, List.foldr_cons]
      exact max_le_max (le_refl _) ih
    · rw [List.filter_cons_of_neg (by simpa using hpt)]
      by_cases hqt : q t = true
      · rw [List.filter_cons_of_pos hqt, List.foldr_cons]
        exact le_trans ih (le_max_right _ _)
      · rw [List.filter_cons_of_neg (by simpa using hqt)]
        exact ih

theorem le_maxSep (r : ℚ) (pool s : List Vec3) (hs : s ∈ pool.sublists)
    (hsep : sepList r s) : s.length ≤ maxSep r pool :=
  le_foldMax _ pool.sublists s hs (decide_eq_true hsep)

theorem maxSep_antitone (pool : List Vec3) (r1 r2 : ℚ) (h0 : 0 ≤ r1)
    (h12 : r1 ≤ r2) : maxSep r2 pool ≤ maxSep r1 pool := by
  refine foldMax_mono _ _ ?_ pool.sublists
  intro s hs
  rw [decide_eq_true_eq] at hs ⊢
  refine hs.imp ?_
  intro a b hab
  unfold sepGE at hab ⊢
  calc r1 ^ 2 ≤ r2 ^ 2 := pow_le_pow_left₀ h0 h12 2
  _ ≤ dist2 a b := hab

theorem acc_le_maxSep (r : ℚ) (hr : 0 < r) (pool acc : List Vec3)
    (hsub : ∀ a ∈ acc, a ∈ pool) (hpw : acc.Pairwise (sepGE r)) :
    acc.length ≤ maxSep r pool := by
  have hnd : acc.Nodup := by
    refine hpw.imp ?_
    intro a b hab
    intro hEq
    subst hEq
    unfold sepGE at hab
    rw [dist2_self] at hab
    exact absurd hab (not_le.2 (pow_pos hr 2))
  obtain ⟨l, hperm, hsl⟩ := hnd.subperm (fun a ha => hsub a ha)
  have hl_sep : sepList r l :=
    (hperm.pairwise_iff (fun {a b} h => sepGE_symm h)).2 hpw
  have hlen : l.length ≤ maxSep r pool :=
    le_maxSep r pool l (List.mem_sublists.2 hsl) hl_sep
  rwa [hperm.length_eq] at hlen

/-- C7 (amended): for a fixed dense input the pruned output count is not
antitone in the radius (see the counterexample); what holds is that the
radius-dependent part of the count is bounded by the maximum cardinality of
an `r`-separated sub-packing of the dense pool — a bound that is antitone in
the radius — while the vertex contribution is constant. -/
theorem C7_packing_amended (fuel : ℕ) (src : RandomSource) (m : SFMeshModel)
    (pool : List Vec3) (r : ℚ) (k : ℕ) (out : List Vec3) (n : ℕ)
    (h : PoissonDiskPruning fuel src m pool r k = some (out, n)) (hr : 0 < r) :
    n ≤ m.verts.length + maxSep r pool ∧
    ∀ r1 r2 : ℚ, 0 ≤ r1 → r1 ≤ r2 → maxSep r2 pool ≤ maxSep r1 pool := by
  obtain ⟨acc, h1, h2, h3, h4, _⟩ := prune_structure fuel src m pool r k out n h hr
  constructor
  · rw [h2, h1, List.length_append]
    exact add_le_add_left (acc_le_maxSep r hr pool acc h3 h4) _
  · intro r1 r2 h0 h12
    exact maxSep_antitone pool r1 r2 h0 h12

/-- Witness for C7 (amended) at the concrete run of `mesh7`/`pool7` with
radius 1. -/
theorem C7_packing_amended_witness :
    (0 : ℚ) < 1 ∧
    (2 ≤ mesh7.verts.length + maxSep 1 pool7 ∧
      ∀ r1 r2 : ℚ, 0 ≤ r1 → r1 ≤ r2 → maxSep r2 pool7 ≤ maxSep r1 pool7) :=
  ⟨by norm_num,
    C7_packing_amended 50 srcZero mesh7 pool7 1 1
      [⟨0, 11/10, 0⟩, ⟨0, 0, 0⟩] 2 (by decide) (by norm_num)⟩

/-- Counterexample for C7 as stated: on the fixed dense pool `pool7` and
the (vertexless) mesh `mesh7`, with `bestSamplePoolSize = 1`, radius 1
yields 2 samples but the larger radius 6/5 yields 3: at radius 6/5 the
first acceptance also removes the hub point, whose own acceptance at radius
1 had removed both satellites. -/
theorem C7_counterexample :
    (1 : ℚ) ≤ 6/5 ∧
    (PoissonDiskPruning 50 srcZero mesh7 pool7 1 1).map (·.2) = some 2 ∧
    (PoissonDiskPruning 50 srcZero mesh7 pool7 (6/5) 1).map (·.2) = some 3 :=
  ⟨by norm_num, by decide, by decide⟩

theorem floor_div_lt (a b c : ℚ) (hc : 0 < c) (h : a + c ≤ b) :
    ⌊a / c⌋ < ⌊b / c⌋ := by
  have hcc : (a + c) / c = a / c + 1 := by
    rw [add_div, div_self (ne_of_gt hc)]
  have h1 : a / c + 1 ≤ b / c := by
    rw [← hcc]
    gcongr
  calc ⌊a / c⌋ < ⌊a / c⌋ + 1 := lt_add_one _
  _ = ⌊a / c + 1⌋ := (Int.floor_add_one _).symm
  _ ≤ ⌊b / c⌋ := Int.floor_le_floor h1

theorem ratFloor_ne_of_gap (a b c : ℚ) (hc : 0 < c) (h : c ≤ |a - b|) :
    ratFloorZ (a / c) ≠ ratFloorZ (b / c) := by
  rw [ratFloorZ_eq, ratFloorZ_eq]
  rcases le_abs.1 h with h1 | h1
  · exact ne_of_gt (floor_div_lt b a c hc (by linarith))
  · exact ne_of_lt (floor_div_lt a b c hc (by linarith))

theorem cellOf_ne (c : ℚ) (o p q : Vec3) (hc : 0 < c)
    (h : c ≤ chebDist p q) : cellOf c o p ≠ cellOf c o q := by
  unfold chebDist at h
  rcases le_max_iff.1 h with hx | hyz
  · intro hcell
    have := congrArg Prod.fst hcell
    refine ratFloor_ne_of_gap (p.x - o.x) (q.x - o.x) c hc ?_ this
    have : p.x - o.x - (q.x - o.x) = p.x - q.x := by ring
    rwa [this]
  · rcases le_max_iff.1 hyz with hy | hz
    · intro hcell
      have := congrArg (fun t : Cell => t.2.1) hcell
      refine ratFloor_ne_of_gap (p.y - o.y) (q.y - o.y) c hc ?_ this
      have : p.y - o.y - (q.y - o.y) = p.y - q.y := by ring
      rwa [this]
    · intro hcell
      have := congrArg (fun t : Cell => t.2.2) hcell
      refine ratFloor_ne_of_gap (p.z - o.z) (q.z - o.z) c hc ?_ this
      have : p.z - o.z - (q.z - o.z) = p.z - q.z := by ring
      rwa [this]

theorem chebDist_pos {p q : Vec3} (h : p ≠ q) : 0 < chebDist p q := by
  by_contra hc
  push_neg at hc
  unfold chebDist at hc
  have hx : |p.x - q.x| ≤ 0 := le_trans (le_max_left _ _) hc
  have hy : |p.y - q.y| ≤ 0 := le_trans (le_trans (le_max_left _ _) (le_max_right _ _)) hc
  have hz : |p.z - q.z| ≤ 0 := le_trans (le_trans (le_max_right _ _) (le_max_right _ _)) hc
  apply h
  have ex : p.x = q.x := by
    have := abs_nonneg (p.x - q.x)
    have h0 : |p.x - q.x| = 0 := le_antisymm hx this
    have := abs_eq_zero.1 h0
    linarith
  have ey : p.y = q.y := by
    have := abs_nonneg (p.y - q.y)
    have h0 : |p.y - q.y| = 0 := le_antisymm hy this
    have := abs_eq_zero.1 h0
    linarith
  have ez : p.z = q.z := by
    have := abs_nonneg (p.z - q.z)
    have h0 : |p.z - q.z| = 0 := le_antisymm hz this
    have := abs_eq_zero.1 h0
    linarith
  cases p; cases q
  simp_all

theorem minGap_pos (pool : List Vec3) : 0 < minGap pool := by
  unfold minGap
  have hgen : ∀ L : List (Vec3 × Vec3), (∀ pr ∈ L, pr.1 ≠ pr.2) →
      (0 : ℚ) < L.foldr (fun pr m => min (chebDist pr.1 pr.2) m) 1 := by
    intro L
    induction L with
    | nil => intro _; norm_num
    | cons pr rest ih =>
      intro hL
      rw [List.foldr_cons]
      exact lt_min (chebDist_pos (hL pr (List.mem_cons_self _ _)))
        (ih fun x hx => hL x (List.mem_cons_of_mem _ hx))
  refine hgen _ ?_
  intro pr hpr
  have := (List.mem_filter.1 hpr).2
  simpa using this

theorem minGap_le (pool : List Vec3) (p q : Vec3) (hp : p ∈ pool) (hq : q ∈ pool)
    (hne : p ≠ q) : minGap pool ≤ chebDist p q := by
  unfold minGap
  have hmem : (p, q) ∈ (pool ×ˢ pool).filter (fun pr => decide (pr.1 ≠ pr.2)) := by
    rw [List.mem_filter]
    exact ⟨List.pair_mem_product.2 ⟨hp, hq⟩, by simpa using hne⟩
  have hgen : ∀ L : List (Vec3 × Vec3), (p, q) ∈ L →
      L.foldr (fun pr m => min (chebDist pr.1 pr.2) m) 1 ≤ chebDist p q := by
    intro L
    induction L with
    | nil => intro h; cases h
    | cons pr rest ih =>
      intro hL
      rw [List.foldr_cons]
      rcases List.mem_cons.1 hL with h | h
      · rw [← h]
        exact min_le_left _ _
      · exact le_trans (min_le_right _ _) (ih h)
  exact hgen _ hmem

theorem dedup_length_map_of_inj (f : Vec3 → Cell) (l : List Vec3)
    (hinj : ∀ p ∈ l, ∀ q ∈ l, f p = f q → p = q) :
    (l.map f).dedup.length = l.dedup.length := by
  rw [← List.card_toFinset, ← List.card_toFinset]
  have him : (l.map f).toFinset = l.toFinset.image f := by
    ext x
    simp
  rw [him]
  exact Finset.card_image_of_injOn
    (fun p hp q hq => hinj p (List.mem_toFinset.1 hp) q (List.mem_toFinset.1 hq))

theorem alloc_sep (m : SFMeshModel) (pool : List Vec3) (c : ℚ) (hc : 0 < c)
    (hsep : c ≤ minGap pool) :
    (buildGrid m pool c).alloc.length = pool.dedup.length := by
  apply dedup_length_map_of_inj
  intro p hp q hq hf
  by_contra hne
  exact cellOf_ne c _ p q hc (le_trans hsep (minGap_le pool p q hp hq hne)) hf

theorem initLoop_exits (m : SFMeshModel) (pool : List Vec3) :
    ∀ (j : ℕ) (c : ℚ),
      ¬ (100 < (pool.length : ℚ) / ((buildGrid m pool (c / 2 ^ j)).alloc.length : ℚ)) →
      ∃ g, initLoop m pool (j + 1) c = some g ∧
        ¬ (100 < (pool.length : ℚ) / (g.alloc.length : ℚ)) := by
  intro j
  induction j with
  | zero =>
    intro c hcond
    rw [pow_zero, div_one] at hcond
    exact ⟨buildGrid m pool c, by simp [initLoop, hcond], hcond⟩
  | succ j ih =>
    intro c hcond
    by_cases hc : 100 < (pool.length : ℚ) / ((buildGrid m pool c).alloc.length : ℚ)
    · have hre : c / 2 ^ (j + 1) = c / 2 / 2 ^ j := by
        rw [pow_succ]
        ring
      rw [hre] at hcond
      obtain ⟨g, hg, hrat⟩ := ih (c / 2) hcond
      exact ⟨g, by simp only [initLoop, hc, if_pos]; exact hg, hrat⟩
    · exact ⟨buildGrid m pool c, by simp [initLoop, hc], hc⟩

/-- C6 (amended): the grid-construction loop of `InitSpatialHashTable`
terminates with occupancy ratio at most 100 for every non-empty dense
input whose point count is at most 100 times its number of distinct
positions: once the halving cell size undercuts the smallest coordinate gap
the distinct positions occupy distinct cells.  Without that proviso the
loop need not terminate: 101 coincident points occupy a single cell at
every cell size (see the counterexample). -/
theorem C6_occupancy_amended (m : SFMeshModel) (pool : List Vec3) (r : ℚ)
    (hne : pool ≠ []) (hr : 0 < r)
    (hocc : (pool.length : ℚ) ≤ 100 * pool.dedup.length) :
    ∃ fuel g, InitSpatialHashTable fuel m pool r = some g ∧
      ¬ (100 < (pool.length : ℚ) / (g.alloc.length : ℚ)) := by
  have hs3 : (0 : ℚ) < sqrt3Q := by norm_num [sqrt3Q]
  have hc0 : 0 < 2 * r / sqrt3Q := by positivity
  have hgap : 0 < minGap pool := minGap_pos pool
  obtain ⟨j, hj⟩ : ∃ j : ℕ, 2 * r / sqrt3Q / 2 ^ j ≤ minGap pool := by
    obtain ⟨n, hn⟩ := pow_unbounded_of_one_lt ((2 * r / sqrt3Q) / minGap pool)
      (by norm_num : (1 : ℚ) < 2)
    refine ⟨n, ?_⟩
    rw [div_le_iff₀ (by positivity)]
    rw [div_lt_iff₀ hgap] at hn
    linarith
  have hcj : 0 < 2 * r / sqrt3Q / 2 ^ j := by positivity
  have halloc := alloc_sep m pool _ hcj hj
  have hdpos : 0 < pool.dedup.length := by
    rcases Nat.eq_zero_or_pos pool.dedup.length with h | h
    · exact absurd ((List.dedup_eq_nil pool).1 (List.length_eq_zero.1 h)) hne
    · exact h
  have hcond : ¬ (100 < (pool.length : ℚ) /
      ((buildGrid m pool (2 * r / sqrt3Q / 2 ^ j)).alloc.length : ℚ)) := by
    rw [not_lt, halloc, div_le_iff₀ (by exact_mod_cast hdpos)]
    linarith
  obtain ⟨g, hg, hrat⟩ := initLoop_exits m pool j (2 * r / sqrt3Q) hcond
  exact ⟨j + 1, g, hg, hrat⟩

/-- Witness for C6 (amended): a single-point pool terminates with ratio at
most 100. -/
theorem C6_occupancy_amended_witness :
    (pool1 ≠ [] ∧ (0 : ℚ) < 1 ∧ (pool1.length : ℚ) ≤ 100 * pool1.dedup.length) ∧
    ∃ fuel g, InitSpatialHashTable fuel mesh6 pool1 1 = some g ∧
      ¬ (100 < (pool1.length : ℚ) / (g.alloc.length : ℚ)) :=
  ⟨⟨by decide, by norm_num, by norm_num [pool1]⟩,
    C6_occupancy_amended mesh6 pool1 1 (by decide) (by norm_num)
      (by norm_num [pool1])⟩

theorem dedup_replicate {α : Type} [DecidableEq α] (v : α) :
    ∀ n : ℕ, (List.replicate (n + 1) v).dedup = [v] := by
  intro n
  induction n with
  | zero => rfl
  | succ n ih =>
    rw [List.replicate_succ,
      List.dedup_cons_of_mem (List.mem_replicate.2 ⟨by omega, rfl⟩)]
    exact ih

theorem buildGrid_alloc (m : SFMeshModel) (pool : List Vec3) (c : ℚ) :
    (buildGrid m pool c).alloc
      = (pool.map (cellOf c ⟨m.bbmin.x - c, m.bbmin.y - c, m.bbmin.z - c⟩)).dedup := rfl

theorem initLoop_pool6_none : ∀ (fuel : ℕ) (c : ℚ), initLoop mesh6 pool6 fuel c = none := by
  intro fuel
  induction fuel with
  | zero => intro c; rfl
  | succ fuel ih =>
    intro c
    have halloc : (buildGrid mesh6 pool6 c).alloc.length = 1 := by
      rw [buildGrid_alloc, pool6, List.map_replicate,
        show (101 : ℕ) = 100 + 1 from rfl, dedup_replicate]
      rfl
    have hlen : pool6.length = 101 := by
      rw [pool6, List.length_replicate]
    have hcond : 100 < (pool6.length : ℚ) / ((buildGrid mesh6 pool6 c).alloc.length : ℚ) := by
      rw [halloc, hlen]
      norm_num
    simp only [initLoop, hcond, if_pos]
    exact ih (c / 2)

/-- Counterexample for C6 as stated: with the non-empty dense input of 101
coincident points every rebuild keeps a single allocated cell, the
occupancy ratio stays 101 > 100, and the loop never exits, at any fuel. -/
theorem C6_counterexample :
    ¬ ∃ (fuel : ℕ) (g : SHTModel), InitSpatialHashTable fuel mesh6 pool6 1 = some g := by
  rintro ⟨fuel, g, hg⟩
  rw [InitSpatialHashTable, initLoop_pool6_none] at hg
  cases hg

theorem pairwise_sep_nodup {r : ℚ} (hr : 0 < r) {acc : List Vec3}
    (hpw : acc.Pairwise (sepGE r)) : acc.Nodup := by
  refine hpw.imp ?_
  intro a b hab hEq
  subst hEq
  unfold sepGE at hab
  rw [dist2_self] at hab
  exact absurd hab (not_le.2 (pow_pos hr 2))

/-- On every successful run with positive radius the sample count is at
most the vertex count plus the dense pool size: each dense acceptance is a
distinct pool point. -/
theorem prune_count_le (fuel : ℕ) (src : RandomSource) (m : SFMeshModel)
    (pool : List Vec3) (r : ℚ) (k : ℕ) (out : List Vec3) (n : ℕ)
    (h : PoissonDiskPruning fuel src m pool r k = some (out, n)) (hr : 0 < r) :
    n ≤ m.verts.length + pool.length := by
  obtain ⟨acc, h1, h2, h3, h4, _⟩ := prune_structure fuel src m pool r k out n h hr
  have hacc : acc.length ≤ pool.length :=
    ((pairwise_sep_nodup hr h4).subperm fun a ha => h3 a ha).length_le
  rw [h2, h1, List.length_append]
  omega

/-- C4: the min-radius bracketing `do ... while` loop of
`PoissonDiskPruningByNumber` carries no iteration cap and surfaces no
failure value.  On the concrete vertexless mesh `mesh3` with the 4-point
dense pool `pool7` and target count 5 — unreachable, since every trial
yields at most 0 + 4 samples — the loop fails to exit for EVERY fuel bound
and every positive starting radius, against the claim that an internal cap
bounds it and surfaces a `CalibrationFailure`. -/
theorem C4_bracketing_no_cap :
    ∀ (bf pf : ℕ) (r : ℚ) (tr : List Trial), 0 < r →
      bracketMinLoop pf srcZero mesh3 pool7 5 1 bf r tr = none := by
  intro bf
  induction bf with
  | zero => intro pf r tr hr; rfl
  | succ bf ih =>
    intro pf r tr hr
    cases hp : PoissonDiskPruning pf srcZero mesh3 pool7 (r / 2) 1 with
    | none => simp [bracketMinLoop, hp]
    | some oc =>
      obtain ⟨out, cnt⟩ := oc
      have hcnt : cnt ≤ mesh3.verts.length + pool7.length :=
        prune_count_le pf srcZero mesh3 pool7 (r / 2) 1 out cnt hp (by positivity)
      have h04 : mesh3.verts.length + pool7.length = 4 := by decide
      have hcnt5 : cnt < 5 := by omega
      simp only [bracketMinLoop, hp, hcnt5, if_pos]
      exact ih pf (r / 2) (tr ++ [(r / 2, pool7)]) (by positivity)

/-- Witness for C4 at concrete fuels and starting radius. -/
theorem C4_bracketing_no_cap_witness :
    (0 : ℚ) < 1/10 ∧
    bracketMinLoop 50 srcZero mesh3 pool7 5 1 30 (1/10) [] = none :=
  ⟨by norm_num, C4_bracketing_no_cap 30 50 (1/10) [] (by norm_num)⟩

theorem bracketMinLoop_pools (pf : ℕ) (src : RandomSource) (m : SFMeshModel)
    (pool : List Vec3) (target k : ℕ) :
    ∀ (bf : ℕ) (r : ℚ) (tr : List Trial)
      (res : ℚ × ℕ × List Vec3 × List Trial),
      bracketMinLoop pf src m pool target k bf r tr = some res →
      (∀ t ∈ tr, t.2 = pool) → ∀ t ∈ res.2.2.2, t.2 = pool := by
  intro bf
  induction bf with
  | zero => intro r tr res h; cases h
  | succ bf ih =>
    intro r tr res h htr
    dsimp only [bracketMinLoop] at h
    cases hp : PoissonDiskPruning pf src m pool (r / 2) k with
    | none => rw [hp] at h; cases h
    | some oc =>
      rw [hp] at h
      obtain ⟨out, cnt⟩ := oc
      have htr' : ∀ t ∈ tr ++ [(r / 2, pool)], t.2 = pool := by
        intro t ht
        rcases List.mem_append.1 ht with h1 | h1
        · exact htr t h1
        · rw [List.mem_singleton.1 h1]
      by_cases hc : cnt < target
      · simp only [hc, if_pos] at h
        exact ih (r / 2) (tr ++ [(r / 2, pool)]) res h htr'
      · simp only [hc, if_neg, not_false_eq_true] at h
        obtain rfl : (r / 2, cnt, out, tr ++ [(r / 2, pool)]) = res := by
          simpa using h
        exact htr'

theorem bracketMaxLoop_pools (pf : ℕ) (src : RandomSource) (m : SFMeshModel)
    (pool : List Vec3) (target k : ℕ) :
    ∀ (bf : ℕ) (r : ℚ) (tr : List Trial)
      (res : ℚ × ℕ × List Vec3 × List Trial),
      bracketMaxLoop pf src m pool target k bf r tr = some res →
      (∀ t ∈ tr, t.2 = pool) → ∀ t ∈ res.2.2.2, t.2 = pool := by
  intro bf
  induction bf with
  | zero => intro r tr res h; cases h
  | succ bf ih =>
    intro r tr res h htr
    dsimp only [bracketMaxLoop] at h
    cases hp : PoissonDiskPruning pf src m pool (r * 2) k with
    | none => rw [hp] at h; cases h
    | some oc =>
      rw [hp] at h
      obtain ⟨out, cnt⟩ := oc
      have htr' : ∀ t ∈ tr ++ [(r * 2, pool)], t.2 = pool := by
        intro t ht
        rcases List.mem_append.1 ht with h1 | h1
        · exact htr t h1
        · rw [List.mem_singleton.1 h1]
      by_cases hc : target < cnt
      · simp only [hc, if_pos] at h
        exact ih (r * 2) (tr ++ [(r * 2, pool)]) res h htr'
      · simp only [hc, if_neg, not_false_eq_true] at h
        obtain rfl : (r * 2, cnt, out, tr ++ [(r * 2, pool)]) = res := by
          simpa using h
        exact htr'

theorem bisectLoop_pools (pf : ℕ) (src : RandomSource) (m : SFMeshModel)
    (pool : List Vec3) (target k nmin nmax : ℕ) :
    ∀ (it : ℕ) (minRad maxRad curRadius : ℚ) (cnt : ℕ) (out : List Vec3)
      (tr : List Trial) (res : List Vec3 × ℕ × ℚ × List Trial),
      bisectLoop pf src m pool target k nmin nmax it minRad maxRad curRadius cnt out tr
        = some res →
      (∀ t ∈ tr, t.2 = pool) → ∀ t ∈ res.2.2.2, t.2 = pool := by
  intro it
  induction it with
  | zero =>
    intro minRad maxRad curRadius cnt out tr res h htr
    obtain rfl : (out, cnt, curRadius, tr) = res := by
      simpa [bisectLoop] using h
    exact htr
  | succ it ih =>
    intro minRad maxRad curRadius cnt out tr res h htr
    dsimp only [bisectLoop] at h
    by_cases hc : cnt < nmin ∨ nmax < cnt
    · simp only [hc, if_pos] at h
      cases hp : PoissonDiskPruning pf src m pool ((maxRad + minRad) / 2) k with
      | none => rw [hp] at h; cases h
      | some oc =>
        rw [hp] at h
        obtain ⟨out', cnt'⟩ := oc
        refine ih _ _ _ _ _ _ res h ?_
        intro t ht
        rcases List.mem_append.1 ht with h1 | h1
        · exact htr t h1
        · rw [List.mem_singleton.1 h1]
    · simp only [hc, if_neg, not_false_eq_true] at h
      obtain rfl : (out, cnt, curRadius, tr) = res := by simpa using h
      exact htr

/-- C3 (amended): the dense Monte Carlo pool is not regenerated during
`PoissonDiskPruningByNumber`: the single `montecarlo_cloud` argument is
passed unchanged to every `PoissonDiskPruning` trial of the bracketing and
bisection loops; only the spatial hash grid over it is rebuilt per trial. -/
theorem C3_pool_reuse (pf bf : ℕ) (src : RandomSource) (m : SFMeshModel)
    (pool : List Vec3) (target : ℕ) (tol : ℚ) (k maxIter : ℕ)
    (res : List Vec3 × ℕ × ℚ × List Trial)
    (h : PoissonDiskPruningByNumber pf bf src m pool target tol k maxIter = some res) :
    ∀ t ∈ res.2.2.2, t.2 = pool := by
  dsimp only [PoissonDiskPruningByNumber] at h
  cases h1 : bracketMinLoop pf src m pool target k bf (diagQ m / 50) [] with
  | none => rw [h1] at h; cases h
  | some res1 =>
    rw [h1] at h
    obtain ⟨minRad, minCnt, out1, tr1⟩ := res1
    dsimp only at h
    have htr1 : ∀ t ∈ tr1, t.2 = pool :=
      bracketMinLoop_pools pf src m pool target k bf (diagQ m / 50) []
        (minRad, minCnt, out1, tr1) h1 (by intro t ht; cases ht)
    cases h2 : bracketMaxLoop pf src m pool target k bf (diagQ m / 50) tr1 with
    | none => rw [h2] at h; cases h
    | some res2 =>
      rw [h2] at h
      obtain ⟨maxRad, cnt2, out2, tr2⟩ := res2
      dsimp only at h
      have htr2 : ∀ t ∈ tr2, t.2 = pool :=
        bracketMaxLoop_pools pf src m pool target k bf (diagQ m / 50) tr1
          (maxRad, cnt2, out2, tr2) h2 htr1
      exact bisectLoop_pools pf src m pool target k _ _ maxIter minRad maxRad maxRad
        cnt2 out2 tr2 res h htr2

/-- Witness for C3 (amended) at the concrete calibration run (7 trials). -/
theorem C3_pool_reuse_witness :
    ∃ res, PoissonDiskPruningByNumber 50 50 srcZero mesh3 pool7 3 0 1 10 = some res ∧
      ∀ t ∈ res.2.2.2, t.2 = pool7 := by
  cases h : PoissonDiskPruningByNumber 50 50 srcZero mesh3 pool7 3 0 1 10 with
  | none => exact absurd h (by decide)
  | some res =>
    exact ⟨res, rfl, C3_pool_reuse 50 50 srcZero mesh3 pool7 3 0 1 10 res h⟩

/-- Counterexample for C3 as stated: the concrete calibration run on
`mesh3`/`pool7` performs at least two trials (it performs 7), and every
trial consumed exactly the caller's input pool — the pool is reused across
calibration iterations, not regenerated from scratch. -/
theorem C3_counterexample :
    (PoissonDiskPruningByNumber 50 50 srcZero mesh3 pool7 3 0 1 10).map
        (fun res => decide (2 ≤ res.2.2.2.length) &&
          res.2.2.2.all (fun t => decide (t.2 = pool7)))
      = some true := by
  decide

/-- C8: the three sampling entry points are deterministic in the model:
identically-seeded random sources and identical inputs yield identical
results (the only process-wide state of the source is the shared generator,
modelled as the explicit `RandomSource` argument). -/
theorem C8_determinism (s1 s2 : RandomSource) (m : SFMeshModel) (cnt : ℕ)
    (pool : List Vec3) (r tol : ℚ) (k fuel pf bf target maxIter : ℕ)
    (hs : s1 = s2) :
    montecarlo_sampling s1 m cnt = montecarlo_sampling s2 m cnt ∧
    PoissonDiskPruning fuel s1 m pool r k = PoissonDiskPruning fuel s2 m pool r k ∧
    PoissonDiskPruningByNumber pf bf s1 m pool target tol k maxIter
      = PoissonDiskPruningByNumber pf bf s2 m pool target tol k maxIter := by
  subst hs
  exact ⟨rfl, rfl, rfl⟩

/-- Witness for C8 at concrete inputs with the same seeded source twice. -/
theorem C8_determinism_witness :
    montecarlo_sampling srcZero mesh3 0 = montecarlo_sampling srcZero mesh3 0 ∧
    PoissonDiskPruning 50 srcZero mesh3 pool7 1 1
      = PoissonDiskPruning 50 srcZero mesh3 pool7 1 1 ∧
    PoissonDiskPruningByNumber 50 50 srcZero mesh3 pool7 3 0 1 10
      = PoissonDiskPruningByNumber 50 50 srcZero mesh3 pool7 3 0 1 10 :=
  C8_determinism srcZero srcZero mesh3 0 pool7 1 0 1 50 50 50 3 10 rfl

end Theorems

end SUMS
